import Mathlib

/-!
Verification of the placeholder-protecting PO translator (`main.py`).

Texts are modelled as `List Char`.  The regex
`PLACEHOLDER_PATTERN = (\{[^}]+\}|%\([^)]+\)[sd])` together with `re.sub`'s
left-to-right non-overlapping scan is modelled by `tryMatch` / `protectFuel`.
Case-insensitive literal substitution (`re.compile(re.escape(token), re.IGNORECASE)`)
is modelled by `subCI` / `replaceCI`, comparing characters through `Char.toLower`.
The fuel arguments make all definitions structurally recursive (each scanning
step consumes at least one character, so fuel equal to the text length always
suffices); lemmas carry the corresponding adequacy hypotheses.
-/

/-- Lower-case a character, as Python's ASCII-range case folding. -/
def lowc (c : Char) : Char := c.toLower

/-- Lower-case a text: the case-insensitive "shadow" used for matching. -/
def lstr (l : List Char) : List Char := l.map lowc

/-- Test whether `pat` matches at the start of `s`, ignoring case.
This is how the compiled `re.IGNORECASE` literal pattern tests one position. -/
def isCIPrefix : List Char → List Char → Bool
  | [], _ => true
  | _ :: _, [] => false
  | p :: ps, c :: cs => (lowc p == lowc c) && isCIPrefix ps cs

/-- One attempt of `PLACEHOLDER_PATTERN` at the current position: the brace
alternative `\{[^}]+\}` first, else the percent alternative `%\([^)]+\)[sd]`.
Returns the matched placeholder and the remainder of the text. -/
def tryMatch (s : List Char) : Option (List Char × List Char) :=
  match s with
  | [] => none
  | c :: rest =>
    if c = '{' then
      let inner := rest.takeWhile (fun x => !(x == '}'))
      match rest.dropWhile (fun x => !(x == '}')) with
      | [] => none
      | closing :: rest2 =>
        if inner = [] then none else some (c :: (inner ++ [closing]), rest2)
    else if c = '%' then
      match rest with
      | [] => none
      | c2 :: rest2 =>
        if c2 = '(' then
          let inner := rest2.takeWhile (fun x => !(x == ')'))
          match rest2.dropWhile (fun x => !(x == ')')) with
          | [] => none
          | [_] => none
          | closing :: ty :: rest3 =>
            if inner = [] then none
            else if ty = 's' ∨ ty = 'd' then some (c :: c2 :: (inner ++ [closing, ty]), rest3)
            else none
        else none
    else none

/-- The decimal digit characters, used to render the token counter. -/
def digitChar : Nat → Char
  | 0 => '0' | 1 => '1' | 2 => '2' | 3 => '3' | 4 => '4'
  | 5 => '5' | 6 => '6' | 7 => '7' | 8 => '8' | _ => '9'

/-- Decimal rendering of a natural number (fuelled; `fuel = n + 1` suffices). -/
def natToDigitsAux : Nat → Nat → List Char
  | 0, _ => []
  | fuel + 1, n => if n < 10 then [digitChar n] else natToDigitsAux fuel (n / 10) ++ [digitChar (n % 10)]

/-- Decimal rendering of a natural number, as Python's `str(n)`. -/
def natToDigits (n : Nat) : List Char := natToDigitsAux (n + 1) n

/-- The ten decimal digit characters. -/
def decDigits : List Char := ['0', '1', '2', '3', '4', '5', '6', '7', '8', '9']

/-- Reading a digit character back as a number. -/
def digitVal (c : Char) : Nat := c.toNat - 48

/-- Parsing a decimal digit string back to a number. -/
def parseDigits (l : List Char) : Nat := l.foldl (fun a c => 10 * a + digitVal c) 0

/-- The token generated for the `n`-th placeholder: `UNIQ_PH_<n>_UNIQ`. -/
def tokenOf (n : Nat) : List Char := "UNIQ_PH_".data ++ natToDigits n ++ "_UNIQ".data

/-- The scanning loop of `PLACEHOLDER_PATTERN.sub(repl, text)` in
`protect_placeholders`: `n` is `len(placeholders)`, the number of matches so
far; every match is replaced by `tokenOf n` and recorded (in order) in the
token map.  Fuel `≥ text.length` makes the first equation unreachable. -/
def protectFuel : Nat → List Char → Nat → List Char × List (List Char × List Char)
  | 0, t, _ => (t, [])
  | _ + 1, [], _ => ([], [])
  | fuel + 1, c :: cs, n =>
    match tryMatch (c :: cs) with
    | some (m, rest) =>
      let p := protectFuel fuel rest (n + 1)
      (tokenOf n ++ p.1, (tokenOf n, m) :: p.2)
    | none =>
      let p := protectFuel fuel cs n
      (c :: p.1, p.2)

/-- The model of `protect_placeholders(text)`: returns the safe text and the token map
(an association list in insertion order, as a Python dict iterates). -/
def protect_placeholders (text : List Char) : List Char × List (List Char × List Char) :=
  protectFuel text.length text 0

/-- An element of a parsed `re.sub` replacement template: a literal piece of
text, or a reference to a capturing group of the match (group 0 being the
whole match). -/
abbrev TemplItem := Sum (List Char) Nat

deriving instance DecidableEq for Except

/-- The replacement-template escape table of Python's `re`
(`\\a \\b \\f \\n \\r \\t \\v` and the doubled backslash). -/
def templEscape (c : Char) : Option Char :=
  if c = 'a' then some '\x07'
  else if c = 'b' then some '\x08'
  else if c = 'f' then some '\x0c'
  else if c = 'n' then some '\n'
  else if c = 'r' then some '\r'
  else if c = 't' then some '\t'
  else if c = 'v' then some '\x0b'
  else if c = '\\' then some '\\'
  else none

/-- An octal digit, for the octal escapes of replacement templates. -/
def isOctDigit (c : Char) : Bool := decide ('0' ≤ c ∧ c ≤ '7')

/-- The value of an octal digit character. -/
def octVal (c : Char) : Nat := c.toNat - 48

/-- Parse an `re.sub` replacement template, as CPython's
`re._parser.parse_template` does against a pattern with `groups` capturing
groups: `\\g<...>` and `\\1` ... `\\99` are group references checked against
`groups`, `\\0` (and `\\ooo` for three octal digits up to `\\377`) are octal
character escapes, the escapes `\\a \\b \\f \\n \\r \\t \\v \\\\` expand to
control characters, a backslash before any other ASCII letter is an error
(`re.error: bad escape`), a backslash before a non-letter is kept literally,
and a trailing backslash is an error.  Fuel `≥ repl.length` suffices. -/
def parseTemplFuel (groups : Nat) : Nat → List Char → Except String (List TemplItem)
  | 0, _ => .ok []
  | _ + 1, [] => .ok []
  | fuel + 1, c :: rest =>
    if c = '\\' then
      match rest with
      | [] => .error "bad escape (end of pattern)"
      | e :: rest2 =>
        if e = 'g' then
          match rest2 with
          | [] => .error "missing <"
          | lt :: rest3 =>
            if lt = '<' then
              match rest3.dropWhile (fun x => !(x == '>')) with
              | [] => .error "missing >, unterminated name"
              | _ :: rest4 =>
                if rest3.takeWhile (fun x => !(x == '>')) = [] then .error "missing group name"
                else if (rest3.takeWhile (fun x => !(x == '>'))).all (fun x => x.isDigit) then
                  if parseDigits (rest3.takeWhile (fun x => !(x == '>'))) ≤ groups then
                    (parseTemplFuel groups fuel rest4).map
                      (fun items => Sum.inr (parseDigits (rest3.takeWhile (fun x => !(x == '>')))) :: items)
                  else .error "invalid group reference"
                else .error "bad or unknown group name"
            else .error "missing <"
        else if e = '0' then
          match rest2 with
          | d1 :: d2 :: rest3 =>
            if isOctDigit d1 && isOctDigit d2 then
              (parseTemplFuel groups fuel rest3).map
                (fun items => Sum.inl [Char.ofNat (octVal d1 * 8 + octVal d2)] :: items)
            else if isOctDigit d1 then
              (parseTemplFuel groups fuel (d2 :: rest3)).map
                (fun items => Sum.inl [Char.ofNat (octVal d1)] :: items)
            else
              (parseTemplFuel groups fuel rest2).map (fun items => Sum.inl ['\x00'] :: items)
          | [d1] =>
            if isOctDigit d1 then
              (parseTemplFuel groups fuel []).map
                (fun items => Sum.inl [Char.ofNat (octVal d1)] :: items)
            else (parseTemplFuel groups fuel rest2).map (fun items => Sum.inl ['\x00'] :: items)
          | [] => (parseTemplFuel groups fuel []).map (fun items => Sum.inl ['\x00'] :: items)
        else if e.isDigit then
          match rest2 with
          | d2 :: rest3 =>
            if d2.isDigit then
              match rest3 with
              | d3 :: rest4 =>
                if isOctDigit e && isOctDigit d2 && isOctDigit d3 then
                  if octVal e * 64 + octVal d2 * 8 + octVal d3 ≤ 255 then
                    (parseTemplFuel groups fuel rest4).map
                      (fun items =>
                        Sum.inl [Char.ofNat (octVal e * 64 + octVal d2 * 8 + octVal d3)] :: items)
                  else .error "octal escape value outside of range 0-0o377"
                else if parseDigits [e, d2] ≤ groups then
                  (parseTemplFuel groups fuel rest3).map
                    (fun items => Sum.inr (parseDigits [e, d2]) :: items)
                else .error "invalid group reference"
              | [] =>
                if parseDigits [e, d2] ≤ groups then
                  (parseTemplFuel groups fuel []).map
                    (fun items => Sum.inr (parseDigits [e, d2]) :: items)
                else .error "invalid group reference"
            else
              if parseDigits [e] ≤ groups then
                (parseTemplFuel groups fuel rest2).map
                  (fun items => Sum.inr (parseDigits [e]) :: items)
              else .error "invalid group reference"
          | [] =>
            if parseDigits [e] ≤ groups then
              (parseTemplFuel groups fuel []).map (fun items => Sum.inr (parseDigits [e]) :: items)
            else .error "invalid group reference"
        else
          match templEscape e with
          | some ch => (parseTemplFuel groups fuel rest2).map (fun items => Sum.inl [ch] :: items)
          | none =>
            if e.isAlpha then .error "bad escape"
            else (parseTemplFuel groups fuel rest2).map (fun items => Sum.inl ['\\', e] :: items)
    else
      (parseTemplFuel groups fuel rest).map (fun items => Sum.inl [c] :: items)

/-- Parse a replacement template against a pattern with `groups` groups. -/
def parseTemplate (groups : Nat) (repl : List Char) : Except String (List TemplItem) :=
  parseTemplFuel groups repl.length repl

/-- The all-literal template of a backslash-free replacement string. -/
def litTemplate (repl : List Char) : List TemplItem := repl.map (fun c => Sum.inl [c])

/-- Expand a parsed replacement template at one match: group references
produce the matched text (for the escaped-token patterns used here every
valid reference is to group 0, the whole match), with the case it has in the
scanned string. -/
def applyTemplate (items : List TemplItem) (matched : List Char) : List Char :=
  (items.map (fun it => match it with | Sum.inl l => l | Sum.inr _ => matched)).flatten

/-- The scan of `re.sub` for one case-insensitive literal pattern `pat` and a
parsed replacement template `items`: at each position, if `pat` matches
(ignoring case) emit the template expanded at the matched text and continue
after the match, else keep the character and move on.  Fuel `≥ text.length`
suffices since every step consumes at least one character (the patterns used
are the nonempty tokens). -/
def subCI : Nat → List Char → List TemplItem → List Char → List Char
  | 0, _, _, t => t
  | _ + 1, _, _, [] => []
  | fuel + 1, pat, items, c :: cs =>
    if isCIPrefix pat (c :: cs) then
      applyTemplate items ((c :: cs).take pat.length)
        ++ subCI fuel pat items (List.drop (pat.length - 1) cs)
    else c :: subCI fuel pat items cs

/-- The model of `re.compile(re.escape(token), re.IGNORECASE).sub(original, text)`:
the replacement string `original` is an `re.sub` template, so its backslash
escapes are expanded and a bad escape raises `re.error` (modelled as
`.error`, raised before any scanning, as CPython compiles the template up
front); `re.escape(token)` is a literal pattern with no capturing groups
(`groups = 0`). -/
def replaceCI (pat rep text : List Char) : Except String (List Char) :=
  match parseTemplate 0 rep with
  | .error e => .error e
  | .ok items => .ok (subCI text.length pat items text)

/-- The model of `restore_placeholders(text, placeholders)`: replace every
token, in map insertion order, by its original placeholder (as an `re.sub`
replacement template), ignoring case; an `re.error` from a bad template
aborts the loop and propagates. -/
def restore_placeholders (text : List Char) (placeholders : List (List Char × List Char)) :
    Except String (List Char) :=
  placeholders.foldlM (fun t p => replaceCI p.1 p.2 t) text

/-- A translation engine: given the safe text and the language codes, either
returns the translated text or fails (`none` models a raised exception). -/
abbrev Translator := List Char → String → String → Option (List Char)

/-- The model of `translate_text`: protect placeholders, delegate to the
engine, restore.  A failure of the engine, or an `re.error` raised during
restoration, propagates (the body raises before returning). -/
def translate_text (tr : Translator) (text : List Char) (src_lang dest_lang : String) :
    Option (List Char) :=
  let p := protect_placeholders text
  match tr p.1 src_lang dest_lang with
  | some translated =>
    match restore_placeholders translated p.2 with
    | .ok final => some final
    | .error _ => none
  | none => none

/-- Modelled from the spec: a catalog entry of the external catalog library
(polib), with source string, target string, a flags collection and the
boolean-style fuzzy attribute (§3, §6 of the spec: the fuzzy status is
exposed both as a boolean-like attribute and as membership in the flags
collection; the flags collection is described as a set of string flags). -/
structure POEntry where
  msgid : List Char
  msgstr : List Char
  flags : List String
  fuzzy : Bool
deriving DecidableEq, Repr

/-- The characters Python's `str.isspace()` — and hence `str.strip()` —
treats as whitespace (the ASCII whitespace plus the Unicode space
characters and separators). -/
def pyWhitespace : List Char :=
  ['\t', '\n', '\x0b', '\x0c', '\r', '\x1c', '\x1d', '\x1e', '\x1f', ' ',
   '\x85', '\xa0', '\u1680', '\u2000', '\u2001', '\u2002', '\u2003', '\u2004',
   '\u2005', '\u2006', '\u2007', '\u2008', '\u2009', '\u200a', '\u2028',
   '\u2029', '\u202f', '\u205f', '\u3000']

/-- Python's whitespace predicate for `str.strip()`. -/
def isPySpace (c : Char) : Bool := pyWhitespace.contains c

/-- Python's `str.strip()`. -/
def pyStrip (l : List Char) : List Char :=
  ((l.dropWhile isPySpace).reverse.dropWhile isPySpace).reverse

/-- The body of the per-entry loop of `translate_po`: translate if the source
string is nonempty and the stripped target string is empty; on success set the
target and clear the fuzzy marker in both representations; on failure (or when
skipped) leave the entry untouched. -/
def processEntry (tr : Translator) (src_lang dest_lang : String) (entry : POEntry) : POEntry :=
  if entry.msgid ≠ [] ∧ pyStrip entry.msgstr = [] then
    match translate_text tr entry.msgid src_lang dest_lang with
    | some translated =>
      { entry with
        msgstr := translated
        fuzzy := false
        flags := if "fuzzy" ∈ entry.flags then entry.flags.erase "fuzzy" else entry.flags }
    | none => entry
  else entry

/-- The model of `translate_po`: process every entry of the catalog in order; the returned
list is the catalog as saved to the output file. -/
def translate_po (tr : Translator) (src_lang dest_lang : String) (po : List POEntry) :
    List POEntry :=
  po.map (processEntry tr src_lang dest_lang)

/-! ### Decomposition of the safe text into literal blocks and tokens

`itemsFuel` recomputes the scan of `protectFuel`, but keeps the structure:
each item `(X, n, m)` is a literal block `X` (text the scan passed over)
followed by the `n`-th placeholder `m`; a final literal block closes the text.
-/

/-- One literal block, the index of the following token, and the placeholder
the token stands for. -/
abbrev Item := List Char × Nat × List Char

/-- Render a decomposition, drawing the text standing for the `n`-th token
from `g` (`g := tokenOf` yields the safe text itself). -/
def renderItems (g : Nat → List Char) : List Item → List Char → List Char
  | [], last => last
  | (x, n, _) :: r, last => x ++ g n ++ renderItems g r last

/-- Rebuild the original text from a decomposition. -/
def origItems : List Item → List Char → List Char
  | [], last => last
  | (x, _, m) :: r, last => x ++ m ++ origItems r last

/-- The token map induced by a decomposition (insertion order). -/
def mapOfItems (its : List Item) : List (List Char × List Char) :=
  its.map (fun i => (tokenOf i.2.1, i.2.2))

/-- The token indices of a decomposition, in order. -/
def keysOf (its : List Item) : List Nat := its.map (fun i => i.2.1)

/-- The scan of `protectFuel`, producing the block/token decomposition. -/
def itemsFuel : Nat → List Char → Nat → List Item × List Char
  | 0, t, _ => ([], t)
  | _ + 1, [], _ => ([], [])
  | fuel + 1, c :: cs, n =>
    match tryMatch (c :: cs) with
    | some (m, rest) =>
      let p := itemsFuel fuel rest (n + 1)
      (([], n, m) :: p.1, p.2)
    | none =>
      let p := itemsFuel fuel cs n
      match p.1 with
      | [] => ([], c :: p.2)
      | (x, j, m) :: r => ((c :: x, j, m) :: r, p.2)

/-- The decomposition of a whole text. -/
def itemsOf (t : List Char) : List Item × List Char := itemsFuel t.length t 0

/-- The input texts for which we prove exact round-tripping: the lower-cased
text contains neither `uniq` nor `_ph_`, so it cannot collide with the
generated tokens under case-insensitive matching. -/
def FreeText (s : List Char) : Prop :=
  ¬ ("uniq".data <:+: lstr s) ∧ ¬ ("_ph_".data <:+: lstr s)

instance freeText_decidable (s : List Char) : Decidable (FreeText s) := by
  unfold FreeText
  infer_instance

/-- The data-model invariant of §3 of the spec: a non-empty target string
implies the fuzzy marker is absent (in both representations). -/
def EntryInv (e : POEntry) : Prop :=
  e.msgstr ≠ [] → (e.fuzzy = false ∧ "fuzzy" ∉ e.flags)

instance entryInv_decidable (e : POEntry) : Decidable (EntryInv e) := by
  unfold EntryInv
  infer_instance

/-! ### The concrete decimal digits -/

theorem digitChar_mem (d : Nat) : digitChar d ∈ decDigits := by
  match d with
  | 0 | 1 | 2 | 3 | 4 | 5 | 6 | 7 | 8 => decide
  | n + 9 => exact (by decide : '9' ∈ decDigits)

theorem digitVal_digitChar (n : Nat) (h : n < 10) : digitVal (digitChar n) = n := by
  interval_cases n <;> decide

theorem parseDigits_append_single (l : List Char) (c : Char) :
    parseDigits (l ++ [c]) = 10 * parseDigits l + digitVal c := by
  simp [parseDigits, List.foldl_append]

theorem parseDigits_natToDigitsAux : ∀ f n, n < f → parseDigits (natToDigitsAux f n) = n := by
  intro f
  induction f with
  | zero => intro n h; omega
  | succ f ih =>
    intro n h
    by_cases h10 : n < 10
    · simp [natToDigitsAux, h10, parseDigits, digitVal_digitChar n h10]
    · have hrec : n / 10 < f := by omega
      simp only [natToDigitsAux, if_neg h10]
      rw [parseDigits_append_single, ih _ hrec, digitVal_digitChar _ (Nat.mod_lt n (by omega))]
      omega

theorem natToDigits_inj {m n : Nat} (h : natToDigits m = natToDigits n) : m = n := by
  have hm := parseDigits_natToDigitsAux (m + 1) m (by omega)
  have hn := parseDigits_natToDigitsAux (n + 1) n (by omega)
  rw [show natToDigitsAux (m + 1) m = natToDigits m from rfl] at hm
  rw [show natToDigitsAux (n + 1) n = natToDigits n from rfl] at hn
  rw [h, hn] at hm
  omega

theorem mem_natToDigitsAux : ∀ f n c, c ∈ natToDigitsAux f n → c ∈ decDigits := by
  intro f
  induction f with
  | zero => intro n c h; simp [natToDigitsAux] at h
  | succ f ih =>
    intro n c h
    by_cases h10 : n < 10
    · simp [natToDigitsAux, h10] at h
      exact h ▸ digitChar_mem n
    · simp only [natToDigitsAux, if_neg h10, List.mem_append, List.mem_singleton] at h
      rcases h with h | h
      · exact ih _ _ h
      · exact h ▸ digitChar_mem (n % 10)

theorem mem_natToDigits {n : Nat} {c : Char} (h : c ∈ natToDigits n) : c ∈ decDigits :=
  mem_natToDigitsAux (n + 1) n c h

theorem natToDigits_ne_nil (n : Nat) : natToDigits n ≠ [] := by
  by_cases h10 : n < 10 <;> simp [natToDigits, natToDigitsAux, h10]

theorem digit_lowc {c : Char} (h : c ∈ decDigits) : lowc c = c := by
  fin_cases h <;> decide

theorem digit_ne_underscore {c : Char} (h : c ∈ decDigits) : c ≠ '_' := by
  fin_cases h <;> decide

theorem digit_ne_u {c : Char} (h : c ∈ decDigits) : c ≠ 'u' := by
  fin_cases h <;> decide

theorem lstr_append (a b : List Char) : lstr (a ++ b) = lstr a ++ lstr b := by
  simp [lstr]

theorem lstr_length (l : List Char) : (lstr l).length = l.length := by
  simp [lstr]

theorem lstr_fix_of_digits : ∀ l : List Char, (∀ c ∈ l, c ∈ decDigits) → lstr l = l := by
  intro l h
  induction l with
  | nil => rfl
  | cons c cs ih =>
    have h1 : lowc c = c := digit_lowc (h c (by simp))
    have h2 : lstr cs = cs := ih (fun x hx => h x (by simp [hx]))
    simp only [lstr, List.map_cons] at h2 ⊢
    rw [h1, h2]

theorem lstr_natToDigits (n : Nat) : lstr (natToDigits n) = natToDigits n :=
  lstr_fix_of_digits _ (fun _ hc => mem_natToDigits hc)

theorem lstr_tokenOf (n : Nat) :
    lstr (tokenOf n) = "uniq_ph_".data ++ natToDigits n ++ "_uniq".data := by
  unfold tokenOf
  rw [lstr_append, lstr_append, lstr_natToDigits,
    (by decide : lstr "UNIQ_PH_".data = "uniq_ph_".data),
    (by decide : lstr "_UNIQ".data = "_uniq".data)]

theorem tokenOf_length (n : Nat) : (tokenOf n).length = 13 + (natToDigits n).length := by
  simp [tokenOf]
  omega

theorem lstr_lstr_tokenOf (n : Nat) : lstr (lstr (tokenOf n)) = lstr (tokenOf n) := by
  rw [lstr_tokenOf, lstr_append, lstr_append, lstr_natToDigits,
    (by decide : lstr "uniq_ph_".data = "uniq_ph_".data),
    (by decide : lstr "_uniq".data = "_uniq".data)]

theorem tokenOf_inj {m n : Nat} (h : tokenOf m = tokenOf n) : m = n := by
  unfold tokenOf at h
  exact natToDigits_inj (List.append_cancel_left (List.append_cancel_right h))

theorem renderItems_eq_protectFuel :
    ∀ f t n, renderItems tokenOf (itemsFuel f t n).1 (itemsFuel f t n).2 = (protectFuel f t n).1 := by
  intro f
  induction f with
  | zero => intro t n; simp [itemsFuel, protectFuel, renderItems]
  | succ f ih =>
    intro t n
    match t with
    | [] => simp [itemsFuel, protectFuel, renderItems]
    | c :: cs =>
      simp only [itemsFuel, protectFuel]
      match htm : tryMatch (c :: cs) with
      | some (m, rest) =>
        simp only [renderItems, List.nil_append]
        rw [ih rest (n + 1)]
      | none =>
        have := ih cs n
        match hits : (itemsFuel f cs n).1 with
        | [] =>
          simp only [hits, renderItems] at this ⊢
          rw [this]
        | (x, j, m) :: r =>
          simp only [hits, renderItems] at this ⊢
          rw [← this]
          simp

theorem mapOfItems_eq_protectFuel :
    ∀ f t n, mapOfItems (itemsFuel f t n).1 = (protectFuel f t n).2 := by
  intro f
  induction f with
  | zero => intro t n; simp [itemsFuel, protectFuel, mapOfItems]
  | succ f ih =>
    intro t n
    match t with
    | [] => simp [itemsFuel, protectFuel, mapOfItems]
    | c :: cs =>
      simp only [itemsFuel, protectFuel]
      match htm : tryMatch (c :: cs) with
      | some (m, rest) =>
        simp only [mapOfItems, List.map_cons]
        rw [show List.map (fun i => (tokenOf i.2.1, i.2.2)) (itemsFuel f rest (n + 1)).1
              = mapOfItems (itemsFuel f rest (n + 1)).1 from rfl, ih rest (n + 1)]
      | none =>
        have := ih cs n
        match hits : (itemsFuel f cs n).1 with
        | [] => simp only [hits, mapOfItems, List.map_nil] at this ⊢; exact this
        | (x, j, m) :: r => simp only [hits, mapOfItems, List.map_cons] at this ⊢; exact this

theorem tryMatch_append {s m rest : List Char} (h : tryMatch s = some (m, rest)) :
    s = m ++ rest ∧ m ≠ [] := by
  match s with
  | [] => simp [tryMatch] at h
  | c :: r =>
    simp only [tryMatch] at h
    by_cases hc : c = '{'
    · rw [if_pos hc] at h
      cases hd : r.dropWhile (fun x => !(x == '}')) with
      | nil => rw [hd] at h; simp at h
      | cons closing rest2 =>
        rw [hd] at h
        dsimp only at h
        by_cases hi : r.takeWhile (fun x => !(x == '}')) = []
        · rw [if_pos hi] at h; simp at h
        · rw [if_neg hi] at h
          simp only [Option.some.injEq, Prod.mk.injEq] at h
          obtain ⟨hm, hr⟩ := h
          subst hm; subst hr
          have hr2 : r = r.takeWhile (fun x => !(x == '}')) ++ (closing :: rest2) := by
            rw [← hd, List.takeWhile_append_dropWhile]
          constructor
          · conv_lhs => rw [hr2]
            simp
          · simp
    · rw [if_neg hc] at h
      by_cases hp : c = '%'
      · rw [if_pos hp] at h
        match r with
        | [] => simp at h
        | c2 :: rest2 =>
          simp only at h
          by_cases h2 : c2 = '('
          · rw [if_pos h2] at h
            cases hd : rest2.dropWhile (fun x => !(x == ')')) with
            | nil => rw [hd] at h; simp at h
            | cons closing after2 =>
              rw [hd] at h
              cases after2 with
              | nil => simp at h
              | cons ty rest3 =>
                dsimp only at h
                by_cases hi : rest2.takeWhile (fun x => !(x == ')')) = []
                · rw [if_pos hi] at h; simp at h
                · rw [if_neg hi] at h
                  by_cases hty : ty = 's' ∨ ty = 'd'
                  · rw [if_pos hty] at h
                    simp only [Option.some.injEq, Prod.mk.injEq] at h
                    obtain ⟨hm, hr⟩ := h
                    subst hm; subst hr
                    have hr2 : rest2 = rest2.takeWhile (fun x => !(x == ')')) ++ (closing :: ty :: rest3) := by
                      rw [← hd, List.takeWhile_append_dropWhile]
                    constructor
                    · conv_lhs => rw [hr2]
                      simp
                    · simp
                  · rw [if_neg hty] at h; simp at h
          · rw [if_neg h2] at h; simp at h
      · rw [if_neg hp] at h; simp at h

theorem origItems_eq :
    ∀ f t n, origItems (itemsFuel f t n).1 (itemsFuel f t n).2 = t := by
  intro f
  induction f with
  | zero => intro t n; simp [itemsFuel, origItems]
  | succ f ih =>
    intro t n
    match t with
    | [] => simp [itemsFuel, origItems]
    | c :: cs =>
      simp only [itemsFuel]
      match htm : tryMatch (c :: cs) with
      | some (m, rest) =>
        simp only [origItems, List.nil_append]
        rw [ih rest (n + 1)]
        exact (tryMatch_append htm).1.symm
      | none =>
        have := ih cs n
        match hits : (itemsFuel f cs n).1 with
        | [] =>
          simp only [hits, origItems] at this ⊢
          rw [this]
        | (x, j, m) :: r =>
          simp only [hits, origItems] at this ⊢
          conv_rhs => rw [← this]
          simp

theorem keysOf_eq :
    ∀ f t n, keysOf (itemsFuel f t n).1 = List.range' n (itemsFuel f t n).1.length := by
  intro f
  induction f with
  | zero => intro t n; simp [itemsFuel, keysOf]
  | succ f ih =>
    intro t n
    match t with
    | [] => simp [itemsFuel, keysOf]
    | c :: cs =>
      simp only [itemsFuel]
      match htm : tryMatch (c :: cs) with
      | some (m, rest) =>
        simp only [keysOf, List.map_cons, List.length_cons]
        rw [show List.map (fun i => i.2.1) (itemsFuel f rest (n + 1)).1
              = keysOf (itemsFuel f rest (n + 1)).1 from rfl, ih rest (n + 1)]
        rw [List.range'_succ]
      | none =>
        have := ih cs n
        match hits : (itemsFuel f cs n).1 with
        | [] => simp [keysOf]
        | (x, j, m) :: r =>
          simp only [hits, keysOf, List.map_cons, List.length_cons] at this ⊢
          exact this

theorem block_infix_orig :
    ∀ (its : List Item) (last x : List Char) (n : Nat) (m : List Char),
      (x, n, m) ∈ its → x <:+: origItems its last := by
  intro its
  induction its with
  | nil => intro last x n m h; simp at h
  | cons i r ih =>
    intro last x n m h
    rcases List.mem_cons.mp h with h | h
    · subst h
      simp only [origItems]
      exact ⟨[], m ++ origItems r last, by simp⟩
    · obtain ⟨a, b, hab⟩ := ih last x n m h
      exact ⟨i.1 ++ i.2.2 ++ a, b, by simp [origItems, hab]⟩

theorem last_infix_orig :
    ∀ (its : List Item) (last : List Char), last <:+: origItems its last := by
  intro its
  induction its with
  | nil => intro last; exact List.infix_refl last
  | cons i r ih =>
    intro last
    obtain ⟨a, b, hab⟩ := ih last
    exact ⟨i.1 ++ i.2.2 ++ a, b, by simp [origItems, hab]⟩

theorem renderItems_append (g : Nat → List Char) :
    ∀ (A B : List Item) (last : List Char),
      renderItems g (A ++ B) last = renderItems g A (renderItems g B last) := by
  intro A
  induction A with
  | nil => intro B last; simp [renderItems]
  | cons i r ih => intro B last; simp [renderItems, ih]

theorem renderItems_absorb (g : Nat → List Char) :
    ∀ (its : List Item) (L : List Char), renderItems g its L = renderItems g its [] ++ L := by
  intro its
  induction its with
  | nil => intro L; simp [renderItems]
  | cons i r ih =>
    intro L
    simp only [renderItems]
    rw [ih L, ih []]
    simp

/-! ### Scanning lemmas for case-insensitive substitution -/

theorem isCIPrefix_iff : ∀ p s : List Char, isCIPrefix p s = true ↔ lstr p <+: lstr s := by
  intro p
  induction p with
  | nil => intro s; simp [isCIPrefix, lstr]
  | cons a p ih =>
    intro s
    cases s with
    | nil => simp [isCIPrefix, lstr]
    | cons c s2 =>
      simp only [isCIPrefix, lstr, List.map_cons, Bool.and_eq_true, beq_iff_eq,
        List.cons_prefix_cons]
      exact and_congr Iff.rfl (ih s2)

theorem isCIPrefix_length {p s : List Char} (h : isCIPrefix p s = true) : p.length ≤ s.length := by
  have := (isCIPrefix_iff p s).mp h
  have := this.length_le
  simpa [lstr_length] using this

theorem subCI_no_match :
    ∀ f pat items t, (∀ q, isCIPrefix pat (t.drop q) = false) → subCI f pat items t = t := by
  intro f
  induction f with
  | zero => intro pat items t _; rfl
  | succ f ih =>
    intro pat items t h
    match t with
    | [] => rfl
    | c :: cs =>
      have h0 := h 0
      simp only [List.drop_zero] at h0
      simp only [subCI, h0, Bool.false_eq_true, if_false]
      rw [ih pat items cs (fun q => h (q + 1))]

theorem subCI_walk :
    ∀ (A : List Char) f pat (items : List TemplItem) B,
      (∀ q, q < A.length → isCIPrefix pat ((A ++ B).drop q) = false) →
      subCI (A.length + f) pat items (A ++ B) = A ++ subCI f pat items B := by
  intro A
  induction A with
  | nil => intro f pat items B _; simp
  | cons a A ih =>
    intro f pat items B h
    have h0 := h 0 (by simp)
    simp only [List.drop_zero, List.cons_append] at h0
    have harith : (a :: A).length + f = (A.length + f) + 1 := by simp; omega
    rw [harith]
    simp only [List.cons_append, subCI, List.append_eq, h0, Bool.false_eq_true, if_false]
    rw [ih f pat items B (fun q hq => h (q + 1) (by simp; omega))]

theorem subCI_head_match :
    ∀ f pat (items : List TemplItem) (v B : List Char), lstr v = lstr pat → v ≠ [] →
      subCI (f + 1) pat items (v ++ B) = applyTemplate items v ++ subCI f pat items B := by
  intro f pat items v B hv hne
  match v, hne with
  | c :: v2, _ =>
    have hpre : isCIPrefix pat ((c :: v2) ++ B) = true := by
      rw [isCIPrefix_iff, lstr_append, ← hv]
      exact List.prefix_append _ _
    rw [List.cons_append] at hpre
    simp only [List.cons_append, subCI, List.append_eq, hpre, if_true]
    have hlen : pat.length = v2.length + 1 := by
      have hl := congrArg List.length hv
      simp only [lstr_length, List.length_cons] at hl
      omega
    rw [hlen]
    simp only [Nat.add_sub_cancel]
    rw [List.take_succ_cons, List.take_left v2 B, List.drop_left v2 B]

theorem prefix_of_append_left {p a b : List Char} (h : p <+: a ++ b) (hl : p.length ≤ a.length) :
    p <+: a := by
  have h1 : p = (a ++ b).take p.length := List.prefix_iff_eq_take.mp h
  rw [List.take_append_eq_append_take, Nat.sub_eq_zero_of_le hl, List.take_zero,
    List.append_nil] at h1
  exact h1 ▸ List.take_prefix p.length a

theorem infix_of_prefix_drop {p l : List Char} {q : Nat} (h : p <+: l.drop q) : p <:+: l :=
  h.isInfix.trans (List.drop_suffix q l).isInfix

theorem lstr_infix_mono {s t : List Char} (h : s <:+: t) : lstr s <:+: lstr t := by
  obtain ⟨a, b, hab⟩ := h
  exact ⟨lstr a, lstr b, by rw [← lstr_append, ← lstr_append, hab]⟩

theorem freeText_of_infix {s t : List Char} (hst : s <:+: t) (h : FreeText t) : FreeText s :=
  ⟨fun hx => h.1 (hx.trans (lstr_infix_mono hst)), fun hx => h.2 (hx.trans (lstr_infix_mono hst))⟩

theorem prefix_drop_idx {p l : List Char} {q : Nat} (h : p <+: l.drop q) {i : Nat}
    (hi : i < p.length) : l[q + i]? = p[i]? := by
  obtain ⟨tail, htail⟩ := h
  rw [← List.getElem?_drop, ← htail, List.getElem?_append, if_pos hi]

theorem lstr_tokenOf_idx0 (n : Nat) : (lstr (tokenOf n))[0]? = some 'u' := by
  rw [lstr_tokenOf]
  rw [List.getElem?_append,
    if_pos (by rw [List.length_append, (by decide : ("uniq_ph_".data).length = 8)]; omega)]
  rw [List.getElem?_append, if_pos (by decide)]
  decide

theorem upos {n o : Nat} (ho : o < (tokenOf n).length)
    (h : (lstr (tokenOf n))[o]? = some 'u') : o = 0 ∨ o = 9 + (natToDigits n).length := by
  rw [lstr_tokenOf] at h
  have hlen8 : ("uniq_ph_".data).length = 8 := by decide
  by_cases h8 : o < 8
  · left
    rw [List.getElem?_append, if_pos (by rw [List.length_append, hlen8]; omega)] at h
    rw [List.getElem?_append, if_pos (by rw [hlen8]; omega)] at h
    interval_cases o <;> revert h <;> decide
  · by_cases hdig : o < 8 + (natToDigits n).length
    · exfalso
      rw [List.getElem?_append, if_pos (by rw [List.length_append, hlen8]; omega)] at h
      rw [List.getElem?_append_right (by rw [hlen8]; omega)] at h
      exact digit_ne_u (mem_natToDigits (List.getElem?_mem h)) (by
        have : 'u' ∈ natToDigits n := List.getElem?_mem h
        rfl)
    · right
      rw [List.getElem?_append_right
        (by rw [List.length_append, hlen8]; omega)] at h
      have hb : o - ("uniq_ph_".data ++ natToDigits n).length < 5 := by
        rw [List.length_append, hlen8]
        rw [tokenOf_length] at ho
        omega
      have hlen2 : ("uniq_ph_".data ++ natToDigits n).length = 8 + (natToDigits n).length := by
        rw [List.length_append, hlen8]
      rcases (by omega :
          o - ("uniq_ph_".data ++ natToDigits n).length = 0 ∨
          o - ("uniq_ph_".data ++ natToDigits n).length = 1 ∨
          o - ("uniq_ph_".data ++ natToDigits n).length = 2 ∨
          o - ("uniq_ph_".data ++ natToDigits n).length = 3 ∨
          o - ("uniq_ph_".data ++ natToDigits n).length = 4) with h1 | h1 | h1 | h1 | h1 <;>
        rw [h1] at h
      · exact absurd h (by decide)
      · rw [hlen2] at h1; omega
      · exact absurd h (by decide)
      · exact absurd h (by decide)
      · exact absurd h (by decide)

theorem uniqLoc (g : Nat → List Char) (hg : ∀ j, lstr (g j) = lstr (tokenOf j)) :
    ∀ (its : List Item) (last : List Char),
      (∀ i ∈ its, FreeText i.1) → FreeText last →
      ∀ q, "uniq".data <+: (lstr (renderItems g its last)).drop q →
      ∃ A x n m B, its = A ++ (x, n, m) :: B ∧
        (q = (renderItems g A []).length + x.length ∨
         q = (renderItems g A []).length + x.length + 9 + (natToDigits n).length) := by
  intro its
  have hgl : ∀ j, (g j).length = (tokenOf j).length := fun j => by
    have h := congrArg List.length (hg j)
    simpa [lstr_length] using h
  induction its with
  | nil =>
    intro last hX hlast q hpre
    simp only [renderItems] at hpre
    exact absurd (infix_of_prefix_drop hpre) hlast.1
  | cons i r ih =>
    obtain ⟨x, n, m⟩ := i
    intro last hX hlast q hpre
    have hS : lstr (renderItems g ((x, n, m) :: r) last)
        = lstr x ++ (lstr (g n) ++ lstr (renderItems g r last)) := by
      simp only [renderItems, lstr_append, List.append_assoc]
    have hgn_pos : 0 < (g n).length := by rw [hgl n, tokenOf_length]; omega
    rcases Nat.lt_or_ge q x.length with hq | hq
    · rcases le_or_lt (q + 4) x.length with hq4 | hq4
      · -- the occurrence would lie wholly inside the free block x
        exfalso
        rw [hS] at hpre
        have hdrop : (lstr x ++ (lstr (g n) ++ lstr (renderItems g r last))).drop q
            = (lstr x).drop q ++ (lstr (g n) ++ lstr (renderItems g r last)) := by
          rw [List.drop_append_eq_append_drop,
            Nat.sub_eq_zero_of_le (by rw [lstr_length]; omega), List.drop_zero]
        rw [hdrop] at hpre
        have hin : "uniq".data <+: (lstr x).drop q := by
          refine prefix_of_append_left hpre ?_
          rw [List.length_drop, lstr_length, (by decide : ("uniq".data).length = 4)]
          omega
        exact (hX (x, n, m) (by simp)).1 (infix_of_prefix_drop hin)
      · -- the occurrence would straddle the end of the block x
        exfalso
        have hR : (lstr (renderItems g ((x, n, m) :: r) last))[q + (x.length - q)]?
            = ("uniq".data)[x.length - q]? :=
          prefix_drop_idx hpre (by rw [(by decide : ("uniq".data).length = 4)]; omega)
        rw [show q + (x.length - q) = x.length from by omega] at hR
        have hL : (lstr (renderItems g ((x, n, m) :: r) last))[x.length]? = some 'u' := by
          rw [hS, List.getElem?_append_right (by rw [lstr_length])]
          rw [lstr_length, Nat.sub_self]
          rw [List.getElem?_append, if_pos (by rw [lstr_length]; omega)]
          rw [hg n]
          exact lstr_tokenOf_idx0 n
        rw [hL] at hR
        rcases (by omega : x.length - q = 1 ∨ x.length - q = 2 ∨ x.length - q = 3)
          with h1 | h1 | h1 <;> rw [h1] at hR <;> exact absurd hR.symm (by decide)
    · rcases Nat.lt_or_ge (q - x.length) (g n).length with ho | ho
      · -- the occurrence starts inside the rendered token
        have hq0 : (lstr (renderItems g ((x, n, m) :: r) last))[q]? = some 'u' := by
          have h := prefix_drop_idx hpre (i := 0) (by decide)
          rw [Nat.add_zero] at h
          rw [h]
          decide
        have hv : (lstr (g n))[q - x.length]? = some 'u' := by
          rw [hS] at hq0
          rw [List.getElem?_append_right (by rw [lstr_length]; omega)] at hq0
          rw [lstr_length] at hq0
          rw [List.getElem?_append, if_pos (by rw [lstr_length]; omega)] at hq0
          exact hq0
        rw [hg n] at hv
        have hosplit := upos (by rw [← hgl n]; omega) hv
        rcases hosplit with h0 | h9
        · exact ⟨[], x, n, m, r, rfl, Or.inl (by simp only [renderItems, List.length_nil]; omega)⟩
        · exact ⟨[], x, n, m, r, rfl, Or.inr (by simp only [renderItems, List.length_nil]; omega)⟩
      · -- the occurrence starts past the rendered token: recurse
        have hpre2 : "uniq".data <+:
            (lstr (renderItems g r last)).drop (q - x.length - (g n).length) := by
          rw [hS] at hpre
          rw [List.drop_append_eq_append_drop,
            List.drop_eq_nil_of_le (by rw [lstr_length]; omega), List.nil_append,
            List.drop_append_eq_append_drop,
            List.drop_eq_nil_of_le (by rw [lstr_length, lstr_length]; omega),
            List.nil_append, lstr_length, lstr_length] at hpre
          exact hpre
        obtain ⟨A2, x2, n2, m2, B2, hits, hcases⟩ :=
          ih last (fun i hi => hX i (by simp [hi])) hlast _ hpre2
        refine ⟨(x, n, m) :: A2, x2, n2, m2, B2, by rw [hits]; rfl, ?_⟩
        have hrl : (renderItems g ((x, n, m) :: A2) []).length
            = x.length + (g n).length + (renderItems g A2 []).length := by
          simp only [renderItems, List.length_append]
        rcases hcases with h1 | h1
        · exact Or.inl (by rw [hrl]; omega)
        · exact Or.inr (by rw [hrl]; omega)

theorem prefix_idx {p l : List Char} (h : p <+: l) {i : Nat} (hi : i < p.length) :
    l[i]? = p[i]? := by
  have h2 : p <+: l.drop 0 := by simpa using h
  simpa using prefix_drop_idx h2 hi

theorem drop_two_blocks (P x y : List Char) :
    (lstr (P ++ (x ++ y))).drop (P.length + x.length) = lstr y := by
  have h1 : lstr (P ++ (x ++ y)) = (lstr P ++ lstr x) ++ lstr y := by
    rw [lstr_append, lstr_append, List.append_assoc]
  rw [h1, show P.length + x.length = (lstr P ++ lstr x).length by simp [lstr_length]]
  exact List.drop_left _ _

theorem digcmp : ∀ (d e A B : List Char), (∀ c ∈ d, c ≠ '_') → (∀ c ∈ e, c ≠ '_') →
    (d ++ '_' :: A <+: e ++ '_' :: B) → d = e := by
  intro d
  induction d with
  | nil =>
    intro e A B _ he h
    cases e with
    | nil => rfl
    | cons c e2 =>
      rw [List.nil_append, List.cons_append, List.cons_prefix_cons] at h
      exact absurd h.1.symm (he c (by simp))
  | cons c d2 ih =>
    intro e A B hd he h
    cases e with
    | nil =>
      rw [List.cons_append, List.nil_append, List.cons_prefix_cons] at h
      exact absurd h.1 (hd c (by simp))
    | cons c2 e2 =>
      rw [List.cons_append, List.cons_append, List.cons_prefix_cons] at h
      rw [h.1, ih e2 A B (fun a ha => hd a (by simp [ha])) (fun a ha => he a (by simp [ha])) h.2]

theorem noPhAt (g : Nat → List Char) (hg : ∀ j, lstr (g j) = lstr (tokenOf j))
    (B : List Item) (last : List Char) (hX : ∀ i ∈ B, FreeText i.1) (hlast : FreeText last)
    (ts : List Char) (h : "_ph_".data ++ ts <+: lstr (renderItems g B last)) : False := by
  cases B with
  | nil =>
    simp only [renderItems] at h
    exact hlast.2 ((List.prefix_append _ _).trans h).isInfix
  | cons i B2 =>
    obtain ⟨x2, n2, m2⟩ := i
    have hfx := (hX (x2, n2, m2) (by simp)).2
    have hS : lstr (renderItems g ((x2, n2, m2) :: B2) last)
        = lstr x2 ++ (lstr (g n2) ++ lstr (renderItems g B2 last)) := by
      simp only [renderItems, lstr_append, List.append_assoc]
    rw [hS] at h
    rcases le_or_lt 4 x2.length with h4 | h4
    · have hpx : "_ph_".data <+: lstr x2 :=
        prefix_of_append_left ((List.prefix_append _ _).trans h)
          (by rw [lstr_length, (by decide : ("_ph_".data).length = 4)]; omega)
      exact hfx hpx.isInfix
    · have hgn_pos : 0 < (g n2).length := by
        have hh := congrArg List.length (hg n2)
        rw [lstr_length, lstr_length] at hh
        rw [hh, tokenOf_length]
        omega
      have hidx := prefix_idx h (i := x2.length)
        (by rw [List.length_append, (by decide : ("_ph_".data).length = 4)]; omega)
      have hL : (lstr x2 ++ (lstr (g n2) ++ lstr (renderItems g B2 last)))[x2.length]?
          = some 'u' := by
        rw [List.getElem?_append_right (by rw [lstr_length]), lstr_length, Nat.sub_self]
        rw [List.getElem?_append, if_pos (by rw [lstr_length]; omega)]
        rw [hg n2]
        exact lstr_tokenOf_idx0 n2
      have hR : ("_ph_".data ++ ts)[x2.length]? = ("_ph_".data)[x2.length]? := by
        rw [List.getElem?_append, if_pos (by rw [(by decide : ("_ph_".data).length = 4)]; omega)]
      rw [hL, hR] at hidx
      rcases (by omega : x2.length = 0 ∨ x2.length = 1 ∨ x2.length = 2 ∨ x2.length = 3)
        with h1 | h1 | h1 | h1 <;> rw [h1] at hidx <;> exact absurd hidx (by decide)

theorem matchChar (g : Nat → List Char) (hg : ∀ j, lstr (g j) = lstr (tokenOf j)) (k : Nat)
    (its : List Item) (last : List Char)
    (hX : ∀ i ∈ its, FreeText i.1) (hlast : FreeText last)
    (q : Nat) (h : isCIPrefix (tokenOf k) ((renderItems g its last).drop q) = true) :
    ∃ A x m B, its = A ++ (x, k, m) :: B ∧ q = (renderItems g A []).length + x.length := by
  have hp : lstr (tokenOf k) <+: (lstr (renderItems g its last)).drop q := by
    have h2 := (isCIPrefix_iff _ _).mp h
    rwa [show lstr ((renderItems g its last).drop q)
        = (lstr (renderItems g its last)).drop q from List.map_drop _ _ _] at h2
  have hu : "uniq".data <+: (lstr (renderItems g its last)).drop q := by
    refine List.IsPrefix.trans ?_ hp
    rw [lstr_tokenOf, (by decide : "uniq_ph_".data = "uniq".data ++ "_ph_".data),
      List.append_assoc, List.append_assoc]
    exact List.prefix_append _ _
  obtain ⟨A, x, n, m, B, hits, hq⟩ := uniqLoc g hg its last hX hlast q hu
  subst hits
  have hform : renderItems g (A ++ (x, n, m) :: B) last
      = renderItems g A [] ++ (x ++ (g n ++ renderItems g B last)) := by
    rw [renderItems_append, renderItems_absorb]
    simp only [renderItems, List.append_assoc]
  have hfreeB : ∀ i ∈ B, FreeText i.1 := fun i hi => hX i (by simp [hi])
  rcases hq with hq1 | hq2
  · -- aligned with the token: its index must be k
    have hdropped : (lstr (renderItems g (A ++ (x, n, m) :: B) last)).drop q
        = lstr (g n) ++ lstr (renderItems g B last) := by
      rw [hform, hq1, drop_two_blocks, lstr_append]
    rw [hdropped] at hp
    rw [hg n, lstr_tokenOf, lstr_tokenOf] at hp
    rw [List.append_assoc, List.append_assoc, List.append_assoc] at hp
    rw [List.prefix_append_right_inj] at hp
    rw [(by decide : "_uniq".data = '_' :: "uniq".data)] at hp
    have hp2 : natToDigits k ++ '_' :: "uniq".data <+:
        natToDigits n ++ '_' :: ("uniq".data ++ lstr (renderItems g B last)) := by
      rw [show natToDigits n ++ '_' :: ("uniq".data ++ lstr (renderItems g B last))
          = natToDigits n ++ ('_' :: "uniq".data ++ lstr (renderItems g B last)) from by simp]
      exact hp
    have hdig : natToDigits k = natToDigits n :=
      digcmp (natToDigits k) (natToDigits n) "uniq".data
        ("uniq".data ++ lstr (renderItems g B last))
        (fun c hc => digit_ne_underscore (mem_natToDigits hc))
        (fun c hc => digit_ne_underscore (mem_natToDigits hc)) hp2
    have hnk : n = k := natToDigits_inj hdig.symm
    exact ⟨A, x, m, B, by rw [hnk], by rw [hq1]⟩
  · -- starting at the trailing "uniq" of the token: impossible
    exfalso
    have hdropped : (lstr (renderItems g (A ++ (x, n, m) :: B) last)).drop q
        = "uniq".data ++ lstr (renderItems g B last) := by
      rw [hform, hq2]
      have hsh : (renderItems g A []).length + x.length + 9 + (natToDigits n).length
          = (renderItems g A []).length + x.length + (9 + (natToDigits n).length) := by omega
      rw [hsh]
      have h2 : lstr (renderItems g A [] ++ (x ++ (g n ++ renderItems g B last)))
          = (lstr (renderItems g A []) ++ lstr x) ++ (lstr (g n) ++ lstr (renderItems g B last)) := by
        rw [lstr_append, lstr_append, lstr_append, List.append_assoc]
      rw [h2]
      rw [show (renderItems g A []).length + x.length
          = (lstr (renderItems g A []) ++ lstr x).length from by simp [lstr_length]]
      rw [List.drop_append]
      rw [List.drop_append_eq_append_drop]
      have hgnl : (lstr (g n)).length = 13 + (natToDigits n).length := by
        rw [hg n, lstr_length, tokenOf_length]
      rw [Nat.sub_eq_zero_of_le (by omega), List.drop_zero]
      rw [hg n, lstr_tokenOf]
      rw [List.drop_append_eq_append_drop]
      rw [List.drop_eq_nil_of_le (by simp [(by decide : ("uniq_ph_".data).length = 8)]; omega)]
      rw [List.nil_append]
      rw [show 9 + (natToDigits n).length - ("uniq_ph_".data ++ natToDigits n).length = 1 from by
        rw [List.length_append, (by decide : ("uniq_ph_".data).length = 8)]; omega]
      rw [(by decide : List.drop 1 "_uniq".data = "uniq".data)]
    rw [hdropped] at hp
    rw [lstr_tokenOf, (by decide : "uniq_ph_".data = "uniq".data ++ "_ph_".data)] at hp
    simp only [List.append_assoc] at hp
    rw [List.prefix_append_right_inj] at hp
    exact noPhAt g hg B last hfreeB hlast _ (by
      rw [show "_ph_".data ++ (natToDigits k ++ "_uniq".data)
          = "_ph_".data ++ natToDigits k ++ "_uniq".data from by simp]
      exact hp)

theorem parseTemplFuel_lit (groups : Nat) :
    ∀ f rep, rep.length ≤ f → '\\' ∉ rep → parseTemplFuel groups f rep = .ok (litTemplate rep) := by
  intro f
  induction f with
  | zero =>
    intro rep hf _
    have hnil : rep = [] := List.eq_nil_of_length_eq_zero (by omega)
    subst hnil
    rfl
  | succ f ih =>
    intro rep hf hbs
    match rep with
    | [] => rfl
    | c :: rest =>
      have hc : ¬ c = '\\' := fun h => hbs (by rw [← h]; exact List.mem_cons_self c rest)
      simp only [parseTemplFuel, if_neg hc]
      rw [ih rest (by simp only [List.length_cons] at hf; omega)
        (fun h => hbs (List.mem_cons_of_mem c h))]
      rfl

theorem parseTemplate_lit (groups : Nat) (rep : List Char) (hbs : '\\' ∉ rep) :
    parseTemplate groups rep = .ok (litTemplate rep) :=
  parseTemplFuel_lit groups rep.length rep (le_refl _) hbs

theorem applyTemplate_lit (rep matched : List Char) :
    applyTemplate (litTemplate rep) matched = rep := by
  unfold applyTemplate litTemplate
  rw [List.map_map]
  induction rep with
  | nil => rfl
  | cons c rest ih =>
    simp only [List.map_cons, List.flatten_cons] at ih ⊢
    rw [ih]
    rfl

theorem infix_not_mem {c : Char} {s t : List Char} (hst : s <:+: t) (h : c ∉ t) : c ∉ s :=
  fun hm => h (hst.subset hm)

theorem stepLemma (g : Nat → List Char) (hg : ∀ j, lstr (g j) = lstr (tokenOf j)) (k : Nat)
    (m X0 : List Char) (rest : List Item) (last : List Char)
    (hm : '\\' ∉ m)
    (hX0 : FreeText X0) (hX : ∀ i ∈ rest, FreeText i.1) (hlast : FreeText last)
    (hkeys : ∀ j ∈ keysOf rest, k ≠ j) :
    replaceCI (tokenOf k) m (renderItems g ((X0, k, m) :: rest) last)
      = .ok (X0 ++ m ++ renderItems g rest last) := by
  have hgl : (g k).length = (tokenOf k).length := by
    have h := congrArg List.length (hg k)
    simpa [lstr_length] using h
  have hgk_ne : g k ≠ [] := by
    intro hnil
    rw [hnil] at hgl
    rw [tokenOf_length] at hgl
    simp only [List.length_nil] at hgl
    omega
  have hXall : ∀ i ∈ (X0, k, m) :: rest, FreeText i.1 := by
    intro i hi
    rcases List.mem_cons.mp hi with hi | hi
    · rw [hi]; exact hX0
    · exact hX i hi
  have hnomatchA : ∀ q, q < X0.length →
      isCIPrefix (tokenOf k) ((renderItems g ((X0, k, m) :: rest) last).drop q) = false := by
    intro q hq
    cases hb : isCIPrefix (tokenOf k) ((renderItems g ((X0, k, m) :: rest) last).drop q) with
    | false => rfl
    | true =>
      exfalso
      obtain ⟨A, x, m2, B, hits, hpos⟩ :=
        matchChar g hg k ((X0, k, m) :: rest) last hXall hlast q hb
      cases A with
      | nil =>
        rw [List.nil_append] at hits
        injection hits with h1 h2
        have hxx : x = X0 := by
          have := congrArg Prod.fst h1
          simpa using this.symm
        rw [hxx] at hpos
        simp only [renderItems, List.length_nil] at hpos
        omega
      | cons i2 A2 =>
        rw [List.cons_append] at hits
        injection hits with h1 h2
        have hkmem : k ∈ keysOf rest := by
          rw [h2]
          simp [keysOf]
        exact hkeys k hkmem rfl
  have hnomatchR : ∀ q,
      isCIPrefix (tokenOf k) ((renderItems g rest last).drop q) = false := by
    intro q
    cases hb : isCIPrefix (tokenOf k) ((renderItems g rest last).drop q) with
    | false => rfl
    | true =>
      exfalso
      obtain ⟨A, x, m2, B, hits, hpos⟩ := matchChar g hg k rest last hX hlast q hb
      have hkmem : k ∈ keysOf rest := by
        rw [hits]
        simp [keysOf]
      exact hkeys k hkmem rfl
  have hrender : renderItems g ((X0, k, m) :: rest) last
      = X0 ++ (g k ++ renderItems g rest last) := by
    simp only [renderItems, List.append_assoc]
  unfold replaceCI
  rw [parseTemplate_lit 0 m hm]
  show Except.ok (subCI (renderItems g ((X0, k, m) :: rest) last).length (tokenOf k)
      (litTemplate m) (renderItems g ((X0, k, m) :: rest) last)) = _
  rw [hrender]
  have hlen : (X0 ++ (g k ++ renderItems g rest last)).length
      = X0.length + ((((g k).length - 1) + (renderItems g rest last).length) + 1) := by
    simp only [List.length_append]
    have : 1 ≤ (g k).length := by rw [hgl, tokenOf_length]; omega
    omega
  rw [hlen]
  rw [subCI_walk X0 _ _ _ _ (fun q hq => by rw [← hrender]; exact hnomatchA q hq)]
  rw [subCI_head_match _ _ _ _ _ (hg k) hgk_ne]
  rw [subCI_no_match _ _ _ _ hnomatchR]
  rw [applyTemplate_lit, List.append_assoc]

theorem multistep (g : Nat → List Char) (hg : ∀ j, lstr (g j) = lstr (tokenOf j))
    (t : List Char) (hfree : FreeText t) (hbs : '\\' ∉ t) :
    ∀ (its : List Item) (last P : List Char) (n : Nat),
      P ++ origItems its last = t →
      keysOf its = List.range' n its.length →
      List.foldlM (fun s pr => replaceCI pr.1 pr.2 s) (P ++ renderItems g its last)
        (mapOfItems its) = Except.ok t := by
  intro its
  induction its with
  | nil =>
    intro last P n hP hk
    simp only [mapOfItems, List.map_nil, List.foldlM_nil, renderItems]
    simp only [origItems] at hP
    rw [hP]
    rfl
  | cons i r ih =>
    obtain ⟨x, j, m⟩ := i
    intro last P n hP hk
    simp only [keysOf, List.map_cons, List.length_cons, List.range'_succ] at hk
    injection hk with hk1 hk2
    subst hk1
    simp only [mapOfItems, List.map_cons, List.foldlM_cons]
    have hstate : P ++ renderItems g ((x, j, m) :: r) last
        = renderItems g ((P ++ x, j, m) :: r) last := by
      simp only [renderItems, List.append_assoc]
    rw [hstate]
    have horig : P ++ (x ++ (m ++ origItems r last)) = t := by
      rw [← hP]
      simp only [origItems, List.append_assoc]
    have hPX_free : FreeText (P ++ x) :=
      freeText_of_infix ⟨[], m ++ origItems r last, by rw [← horig]; simp⟩ hfree
    have horig_inf : origItems r last <:+: t :=
      ⟨P ++ x ++ m, [], by rw [← horig]; simp⟩
    have hXr_free : ∀ i ∈ r, FreeText i.1 := by
      intro i hi
      exact freeText_of_infix
        ((block_infix_orig r last i.1 i.2.1 i.2.2 hi).trans horig_inf) hfree
    have hlast_free : FreeText last :=
      freeText_of_infix ((last_infix_orig r last).trans horig_inf) hfree
    have hkeys2 : ∀ jj ∈ keysOf r, j ≠ jj := by
      intro jj hjj
      have hmem : jj ∈ List.range' (j + 1) r.length := by
        rw [show List.range' (j + 1) r.length = List.map (fun i => i.2.1) r from hk2.symm]
        exact hjj
      have := List.mem_range'_1.mp hmem
      omega
    have hm_bs : '\\' ∉ m :=
      infix_not_mem ⟨P ++ x, origItems r last, by rw [← horig]; simp⟩ hbs
    rw [stepLemma g hg j m (P ++ x) r last hm_bs hPX_free hXr_free hlast_free hkeys2]
    show List.foldlM (fun s pr => replaceCI pr.1 pr.2 s) ((P ++ x) ++ m ++ renderItems g r last)
      (mapOfItems r) = Except.ok t
    exact ih last (P ++ x ++ m) (j + 1)
      (by rw [← horig]; simp only [List.append_assoc])
      (by exact hk2)

/-- Restoring any token-case-variant rendering of the safe text yields the
original text, for collision-free inputs.  Instantiated with `g := tokenOf`
this is the round-trip property; other `g` express case changes to tokens. -/
theorem roundtrip_general (g : Nat → List Char) (hg : ∀ j, lstr (g j) = lstr (tokenOf j))
    (t : List Char) (hfree : FreeText t) (hbs : '\\' ∉ t) :
    restore_placeholders (renderItems g (itemsOf t).1 (itemsOf t).2)
      (protect_placeholders t).2 = Except.ok t := by
  unfold restore_placeholders
  have hmap : (protect_placeholders t).2 = mapOfItems (itemsOf t).1 :=
    (mapOfItems_eq_protectFuel t.length t 0).symm
  rw [hmap]
  have h := multistep g hg t hfree hbs (itemsOf t).1 (itemsOf t).2 [] 0
    (by simpa using origItems_eq t.length t 0)
    (keysOf_eq t.length t 0)
  simpa using h

theorem protect_renderItems (t : List Char) :
    (protect_placeholders t).1 = renderItems tokenOf (itemsOf t).1 (itemsOf t).2 :=
  (renderItems_eq_protectFuel t.length t 0).symm

/-- C1 (amended): for every text that contains no backslash and whose
lower-cased form contains neither `uniq` nor `_ph_` (so the text neither
triggers replacement-template escape processing nor collides with generated
tokens under case-insensitive matching), applying `protect_placeholders` and
then `restore_placeholders` with the returned token map, with no intervening
transformation of the safe text, reconstructs the original text exactly. -/
theorem C1_roundtrip (t : List Char) (hfree : FreeText t) (hbs : '\\' ∉ t) :
    restore_placeholders (protect_placeholders t).1 (protect_placeholders t).2
      = Except.ok t := by
  have h := roundtrip_general tokenOf (fun _ => rfl) t hfree hbs
  rwa [← protect_renderItems] at h

theorem C1_roundtrip_witness :
    FreeText "Hello {name}, you have %(count)d messages".data ∧
    '\\' ∉ "Hello {name}, you have %(count)d messages".data ∧
    restore_placeholders
        (protect_placeholders "Hello {name}, you have %(count)d messages".data).1
        (protect_placeholders "Hello {name}, you have %(count)d messages".data).2
      = Except.ok "Hello {name}, you have %(count)d messages".data :=
  ⟨by decide, by decide, C1_roundtrip _ (by decide) (by decide)⟩

/-- C1 counterexample: the round trip fails as universally stated, in three
ways.  A text with token-shaped material comes back mangled
(`uniq_ph_0_uniq {x}` returns as `{x} {x}`); a placeholder containing the
backslash escape `\\n` is restored with the escape expanded to a newline, not
verbatim; and a placeholder containing the bad escape `\\z` makes restoration
raise `re.error` instead of returning the text. -/
theorem C1_roundtrip_counterexample :
    (restore_placeholders (protect_placeholders "uniq_ph_0_uniq {x}".data).1
      (protect_placeholders "uniq_ph_0_uniq {x}".data).2
        ≠ Except.ok "uniq_ph_0_uniq {x}".data) ∧
    (restore_placeholders
        (protect_placeholders ['{', 'a', '\\', 'n', '}']).1
        (protect_placeholders ['{', 'a', '\\', 'n', '}']).2
      = Except.ok ['{', 'a', '\n', '}']) ∧
    (restore_placeholders
        (protect_placeholders ['{', 'a', '\\', 'z', '}']).1
        (protect_placeholders ['{', 'a', '\\', 'z', '}']).2
      = Except.error "bad escape") := by
  refine ⟨by decide, by decide, by decide⟩

/-- C4 (amended): for every backslash-free, collision-free text (no
`uniq`/`_ph_` in its lower-cased form), replacing the tokens of the safe text
by any strings equal to them up to case — in particular upper-, lower- or
title-cased tokens — before restoring still substitutes every token with its
original placeholder and yields the same result as restoring the unmodified
safe text. -/
theorem C4_case_tolerance (t : List Char) (hfree : FreeText t) (hbs : '\\' ∉ t)
    (g : Nat → List Char) (hg : ∀ j, lstr (g j) = lstr (tokenOf j)) :
    restore_placeholders (renderItems g (itemsOf t).1 (itemsOf t).2)
        (protect_placeholders t).2
      = restore_placeholders (protect_placeholders t).1 (protect_placeholders t).2 := by
  have h1 := roundtrip_general g hg t hfree hbs
  have h2 := roundtrip_general tokenOf (fun _ => rfl) t hfree hbs
  rw [← protect_renderItems] at h2
  rw [h1, h2]

theorem C4_case_tolerance_witness :
    FreeText "Hello {name}, you have %(count)d messages".data ∧
    '\\' ∉ "Hello {name}, you have %(count)d messages".data ∧
    (∀ j, lstr (lstr (tokenOf j)) = lstr (tokenOf j)) ∧
    restore_placeholders
        (renderItems (fun j => lstr (tokenOf j))
          (itemsOf "Hello {name}, you have %(count)d messages".data).1
          (itemsOf "Hello {name}, you have %(count)d messages".data).2)
        (protect_placeholders "Hello {name}, you have %(count)d messages".data).2
      = restore_placeholders
          (protect_placeholders "Hello {name}, you have %(count)d messages".data).1
          (protect_placeholders "Hello {name}, you have %(count)d messages".data).2 :=
  ⟨by decide, by decide, lstr_lstr_tokenOf,
    C4_case_tolerance _ (by decide) (by decide) (fun j => lstr (tokenOf j)) lstr_lstr_tokenOf⟩

/-- C4 counterexample: lower-casing the token in the safe text of
`UNIQ_PH_0_{x}` changes the restoration result, so case-changing the tokens
does not always yield the same result as restoring the unmodified safe text. -/
theorem C4_case_tolerance_counterexample :
    restore_placeholders
        (renderItems (fun j => lstr (tokenOf j)) (itemsOf "UNIQ_PH_0_{x}".data).1
          (itemsOf "UNIQ_PH_0_{x}".data).2)
        (protect_placeholders "UNIQ_PH_0_{x}".data).2
      ≠ restore_placeholders (protect_placeholders "UNIQ_PH_0_{x}".data).1
          (protect_placeholders "UNIQ_PH_0_{x}".data).2 := by
  decide

/-! ### Catalog-level lemmas -/

theorem processEntry_skip (tr : Translator) (src dest : String) (e : POEntry)
    (h : ¬ (e.msgid ≠ [] ∧ pyStrip e.msgstr = [])) : processEntry tr src dest e = e := by
  unfold processEntry
  rw [if_neg h]

theorem processEntry_fail (tr : Translator) (src dest : String) (e : POEntry)
    (hcond : e.msgid ≠ [] ∧ pyStrip e.msgstr = [])
    (hfail : translate_text tr e.msgid src dest = none) : processEntry tr src dest e = e := by
  unfold processEntry
  rw [if_pos hcond, hfail]

theorem processEntry_success (tr : Translator) (src dest : String) (e : POEntry)
    (tt : List Char) (hcond : e.msgid ≠ [] ∧ pyStrip e.msgstr = [])
    (hsucc : translate_text tr e.msgid src dest = some tt) :
    processEntry tr src dest e =
      { e with
        msgstr := tt
        fuzzy := false
        flags := if "fuzzy" ∈ e.flags then e.flags.erase "fuzzy" else e.flags } := by
  unfold processEntry
  rw [if_pos hcond, hsucc]

theorem erase_fuzzy_not_mem {flags : List String} (hcount : flags.count "fuzzy" ≤ 1) :
    "fuzzy" ∉ (if "fuzzy" ∈ flags then flags.erase "fuzzy" else flags) := by
  by_cases hf : "fuzzy" ∈ flags
  · rw [if_pos hf]
    intro hmem
    have h1 := List.count_erase_self "fuzzy" flags
    have h2 : 0 < (flags.erase "fuzzy").count "fuzzy" := List.count_pos_iff.mpr hmem
    have h3 : 0 < flags.count "fuzzy" := List.count_pos_iff.mpr hf
    omega
  · rw [if_neg hf]
    exact hf

/-- C2 (amended): `translate_po` preserves the invariant "non-empty `msgstr`
implies no fuzzy marker": if every input entry satisfies it (and, per the
set-of-flags data model, carries at most one `fuzzy` flag), then every entry
of the saved catalog satisfies it.  The unrestricted claim fails for skipped
entries, see the counterexample. -/
theorem C2_invariant_preserved (tr : Translator) (src dest : String) (po : List POEntry)
    (hinv : ∀ e ∈ po, EntryInv e) (hcount : ∀ e ∈ po, e.flags.count "fuzzy" ≤ 1) :
    ∀ e2 ∈ translate_po tr src dest po, EntryInv e2 := by
  intro e2 he2
  rw [translate_po, List.mem_map] at he2
  obtain ⟨e, he, rfl⟩ := he2
  by_cases hcond : e.msgid ≠ [] ∧ pyStrip e.msgstr = []
  · match hres : translate_text tr e.msgid src dest with
    | some tt =>
      rw [processEntry_success tr src dest e tt hcond hres]
      intro _
      exact ⟨rfl, erase_fuzzy_not_mem (hcount e he)⟩
    | none =>
      rw [processEntry_fail tr src dest e hcond hres]
      exact hinv e he
  · rw [processEntry_skip tr src dest e hcond]
    exact hinv e he

theorem C2_invariant_preserved_witness :
    (∀ e ∈ [POEntry.mk "a".data [] ["fuzzy"] true], EntryInv e) ∧
    (∀ e ∈ [POEntry.mk "a".data [] ["fuzzy"] true], e.flags.count "fuzzy" ≤ 1) ∧
    (∀ e2 ∈ translate_po (fun _ _ _ => some "T".data) "en" "es"
        [POEntry.mk "a".data [] ["fuzzy"] true], EntryInv e2) :=
  ⟨by decide, by decide,
    C2_invariant_preserved (fun _ _ _ => some "T".data) "en" "es"
      [POEntry.mk "a".data [] ["fuzzy"] true] (by decide) (by decide)⟩

/-- C2 counterexample: a skipped entry (non-empty `msgstr`) keeps its fuzzy
marker, so after a run the saved catalog can contain an entry with non-empty
`msgstr` and the fuzzy flag still present. -/
theorem C2_invariant_counterexample :
    ¬ (∀ e2 ∈ translate_po (fun _ _ _ => some "T".data) "en" "es"
        [POEntry.mk "a".data "x".data ["fuzzy"] true], EntryInv e2) := by
  decide

/-- C6: in `translate_po`, every entry whose translation succeeds gets the
translated result as its target string and has its fuzzy marker cleared in
both representations: the boolean attribute is set to false and (given the
set-of-flags data model of the spec, i.e. at most one `fuzzy` flag) `fuzzy`
is absent from the flags collection afterwards. -/
theorem C6_success_sets_and_clears (tr : Translator) (src dest : String) (po : List POEntry)
    (i : Nat) (hi : i < po.length) (tt : List Char)
    (hcond : (po.get ⟨i, hi⟩).msgid ≠ [] ∧ pyStrip (po.get ⟨i, hi⟩).msgstr = [])
    (hsucc : translate_text tr (po.get ⟨i, hi⟩).msgid src dest = some tt)
    (hcount : (po.get ⟨i, hi⟩).flags.count "fuzzy" ≤ 1) :
    ((translate_po tr src dest po).get ⟨i, by rwa [translate_po, List.length_map]⟩).msgstr = tt ∧
    ((translate_po tr src dest po).get ⟨i, by rwa [translate_po, List.length_map]⟩).fuzzy = false ∧
    "fuzzy" ∉ ((translate_po tr src dest po).get ⟨i, by rwa [translate_po, List.length_map]⟩).flags := by
  have hmapget : (translate_po tr src dest po).get ⟨i, by rwa [translate_po, List.length_map]⟩
      = processEntry tr src dest (po.get ⟨i, hi⟩) := by
    simp [translate_po, List.get_eq_getElem, List.getElem_map]
  rw [hmapget, processEntry_success tr src dest _ tt hcond hsucc]
  exact ⟨rfl, rfl, erase_fuzzy_not_mem hcount⟩

theorem C6_success_sets_and_clears_witness :
    ((POEntry.mk "hi".data [] ["fuzzy"] true).msgid ≠ [] ∧
      pyStrip (POEntry.mk "hi".data [] ["fuzzy"] true).msgstr = []) ∧
    translate_text (fun _ _ _ => some "T".data) (POEntry.mk "hi".data [] ["fuzzy"] true).msgid
      "en" "es" = some "T".data ∧
    ((translate_po (fun _ _ _ => some "T".data) "en" "es"
        [POEntry.mk "hi".data [] ["fuzzy"] true]).get ⟨0, by decide⟩).msgstr = "T".data ∧
    ((translate_po (fun _ _ _ => some "T".data) "en" "es"
        [POEntry.mk "hi".data [] ["fuzzy"] true]).get ⟨0, by decide⟩).fuzzy = false ∧
    "fuzzy" ∉ ((translate_po (fun _ _ _ => some "T".data) "en" "es"
        [POEntry.mk "hi".data [] ["fuzzy"] true]).get ⟨0, by decide⟩).flags := by
  refine ⟨by decide, by decide, ?_⟩
  exact C6_success_sets_and_clears (fun _ _ _ => some "T".data) "en" "es"
    [POEntry.mk "hi".data [] ["fuzzy"] true] 0 (by decide) "T".data (by decide) (by decide)
    (by decide)

/-- C7: in a full run of `translate_po`, an entry with empty source string,
and an entry whose target string is non-empty after stripping, is left
entirely untouched (all fields unchanged). -/
theorem C7_skipped_untouched (tr : Translator) (src dest : String) (po : List POEntry)
    (i : Nat) (hi : i < po.length)
    (hskip : (po.get ⟨i, hi⟩).msgid = [] ∨ pyStrip (po.get ⟨i, hi⟩).msgstr ≠ []) :
    (translate_po tr src dest po).get ⟨i, by rwa [translate_po, List.length_map]⟩
      = po.get ⟨i, hi⟩ := by
  have hmapget : (translate_po tr src dest po).get ⟨i, by rwa [translate_po, List.length_map]⟩
      = processEntry tr src dest (po.get ⟨i, hi⟩) := by
    simp [translate_po, List.get_eq_getElem, List.getElem_map]
  rw [hmapget]
  exact processEntry_skip tr src dest _ (by tauto)

theorem C7_skipped_untouched_witness :
    ((POEntry.mk "a".data "x".data ["fuzzy"] true).msgid = [] ∨
      pyStrip (POEntry.mk "a".data "x".data ["fuzzy"] true).msgstr ≠ []) ∧
    (translate_po (fun _ _ _ => some "T".data) "en" "es"
        [POEntry.mk "a".data "x".data ["fuzzy"] true]).get ⟨0, by decide⟩
      = POEntry.mk "a".data "x".data ["fuzzy"] true :=
  ⟨by decide,
    C7_skipped_untouched (fun _ _ _ => some "T".data) "en" "es"
      [POEntry.mk "a".data "x".data ["fuzzy"] true] 0 (by decide) (by decide)⟩

/-- C8: when the translation of one entry fails, `translate_po` leaves that
entry unchanged (its target string stays unset) and still processes all the
entries before and after it; the whole catalog is still produced (saved). -/
theorem C8_failure_isolated (tr : Translator) (src dest : String) (A B : List POEntry)
    (e : POEntry) (hcond : e.msgid ≠ [] ∧ pyStrip e.msgstr = [])
    (hfail : translate_text tr e.msgid src dest = none) :
    translate_po tr src dest (A ++ e :: B)
      = translate_po tr src dest A ++ e :: translate_po tr src dest B := by
  unfold translate_po
  rw [List.map_append, List.map_cons, processEntry_fail tr src dest e hcond hfail]

theorem C8_failure_isolated_witness :
    ((POEntry.mk "a".data [] ["fuzzy"] true).msgid ≠ [] ∧
      pyStrip (POEntry.mk "a".data [] ["fuzzy"] true).msgstr = []) ∧
    translate_text (fun s _ _ => if s = "b".data then some "B".data else none)
      (POEntry.mk "a".data [] ["fuzzy"] true).msgid "en" "es" = none ∧
    translate_po (fun s _ _ => if s = "b".data then some "B".data else none) "en" "es"
        ([POEntry.mk "b".data [] [] false] ++ POEntry.mk "a".data [] ["fuzzy"] true ::
          [POEntry.mk "c".data "y".data [] false])
      = translate_po (fun s _ _ => if s = "b".data then some "B".data else none) "en" "es"
          [POEntry.mk "b".data [] [] false]
        ++ POEntry.mk "a".data [] ["fuzzy"] true ::
          translate_po (fun s _ _ => if s = "b".data then some "B".data else none) "en" "es"
            [POEntry.mk "c".data "y".data [] false] := by
  refine ⟨by decide, by decide, ?_⟩
  exact C8_failure_isolated (fun s _ _ => if s = "b".data then some "B".data else none)
    "en" "es" [POEntry.mk "b".data [] [] false] [POEntry.mk "c".data "y".data [] false]
    (POEntry.mk "a".data [] ["fuzzy"] true) (by decide) (by decide)

theorem protectFuel_no_match : ∀ f t n, (∀ i, i < t.length → tryMatch (t.drop i) = none) →
    protectFuel f t n = (t, []) := by
  intro f
  induction f with
  | zero => intro t n _; rfl
  | succ f ih =>
    intro t n h
    match t with
    | [] => rfl
    | c :: cs =>
      have h0 := h 0 (by simp)
      simp only [List.drop_zero] at h0
      simp only [protectFuel, h0]
      rw [ih cs n (fun i hi => by
        have h2 := h (i + 1) (by simp; omega)
        simpa using h2)]

/-- C3: protecting a text numbers its matches with a zero-based counter in
order of appearance, with no deduplication: the token map's keys are exactly
`UNIQ_PH_0_UNIQ`, `UNIQ_PH_1_UNIQ`, … .  In particular `"{x} and {x}"` with
two identical placeholders yields two distinct tokens, and restoring the safe
text with the resulting map reconstructs both occurrences. -/
theorem C3_counter_uniqueness :
    (∀ t : List Char, (protect_placeholders t).2.map Prod.fst
        = (List.range (protect_placeholders t).2.length).map tokenOf) ∧
    protect_placeholders "{x} and {x}".data
      = ("UNIQ_PH_0_UNIQ and UNIQ_PH_1_UNIQ".data,
         [(tokenOf 0, "{x}".data), (tokenOf 1, "{x}".data)]) ∧
    tokenOf 0 ≠ tokenOf 1 ∧
    restore_placeholders "UNIQ_PH_0_UNIQ and UNIQ_PH_1_UNIQ".data
        [(tokenOf 0, "{x}".data), (tokenOf 1, "{x}".data)] = Except.ok "{x} and {x}".data := by
  refine ⟨?_, by decide, by decide, by decide⟩
  intro t
  have h1 : (protect_placeholders t).2 = mapOfItems (itemsOf t).1 :=
    (mapOfItems_eq_protectFuel t.length t 0).symm
  rw [h1]
  have h4 := congrArg (List.map tokenOf) (keysOf_eq t.length t 0)
  simp only [keysOf, List.map_map] at h4
  simp only [mapOfItems, List.map_map, List.length_map]
  rw [List.range_eq_range']
  exact h4

/-- C5: the end-to-end scenario: protecting
`Hello {name}, you have %(count)d messages` yields exactly the safe text
`Hello UNIQ_PH_0_UNIQ, you have UNIQ_PH_1_UNIQ messages` with the two-entry
token map, and restoring the mixed-case mocked translation
`Hola UNIQ_ph_0_uniq, tienes UNIQ_PH_1_UNIQ mensajes` yields
`Hola {name}, tienes %(count)d mensajes`; `translate_text` with the mocked
engine produces that final text. -/
theorem C5_end_to_end :
    protect_placeholders "Hello {name}, you have %(count)d messages".data
      = ("Hello UNIQ_PH_0_UNIQ, you have UNIQ_PH_1_UNIQ messages".data,
         [(tokenOf 0, "{name}".data), (tokenOf 1, "%(count)d".data)]) ∧
    tokenOf 0 = "UNIQ_PH_0_UNIQ".data ∧ tokenOf 1 = "UNIQ_PH_1_UNIQ".data ∧
    restore_placeholders "Hola UNIQ_ph_0_uniq, tienes UNIQ_PH_1_UNIQ mensajes".data
        [(tokenOf 0, "{name}".data), (tokenOf 1, "%(count)d".data)]
      = Except.ok "Hola {name}, tienes %(count)d mensajes".data ∧
    translate_text
        (fun s _ _ =>
          if s = "Hello UNIQ_PH_0_UNIQ, you have UNIQ_PH_1_UNIQ messages".data
          then some "Hola UNIQ_ph_0_uniq, tienes UNIQ_PH_1_UNIQ mensajes".data else none)
        "Hello {name}, you have %(count)d messages".data "en" "es"
      = some "Hola {name}, tienes %(count)d mensajes".data := by
  decide

/-- C9: on input with no occurrence of the placeholder grammar the scan
matches nothing and `protect_placeholders` returns the input unchanged with an
empty token map; in particular for the empty text, a `%` not followed by a
valid `(name)s`/`(name)d` form, and a `{` with no closing `}`. -/
theorem C9_no_match_literal :
    (∀ t : List Char, (∀ i, i < t.length → tryMatch (t.drop i) = none) →
      protect_placeholders t = (t, [])) ∧
    protect_placeholders [] = ([], []) ∧
    protect_placeholders "100% sure".data = ("100% sure".data, []) ∧
    protect_placeholders "%(name".data = ("%(name".data, []) ∧
    protect_placeholders "a \x7b unclosed brace".data
      = ("a \x7b unclosed brace".data, []) := by
  refine ⟨?_, by decide, by decide, by decide, by decide⟩
  intro t h
  exact protectFuel_no_match t.length t 0 h

theorem C9_no_match_literal_witness :
    (∀ i, i < ("percent 50% off".data).length →
      tryMatch (("percent 50% off".data).drop i) = none) ∧
    protect_placeholders "percent 50% off".data = ("percent 50% off".data, []) :=
  ⟨by decide, C9_no_match_literal.1 _ (by decide)⟩

/-- C10: both placeholder forms require non-empty interior content: the
two-character string `{}` and the empty-name forms `%()s` / `%()d` are never
matched, are left as literal text in the safe text, and generate no token. -/
theorem C10_empty_interior_not_matched :
    (∀ rest : List Char, tryMatch ('{' :: '}' :: rest) = none) ∧
    (∀ rest : List Char, tryMatch ('%' :: '(' :: ')' :: 's' :: rest) = none) ∧
    (∀ rest : List Char, tryMatch ('%' :: '(' :: ')' :: 'd' :: rest) = none) ∧
    protect_placeholders "\x7b\x7d and %()s and %()d stay, {ok} goes".data
      = ("\x7b\x7d and %()s and %()d stay, UNIQ_PH_0_UNIQ goes".data,
         [(tokenOf 0, "{ok}".data)]) := by
  refine ⟨?_, ?_, ?_, by decide⟩ <;>
    intro rest <;>
    simp [tryMatch, List.takeWhile_cons, List.dropWhile_cons]
